import Mathlib

/-!
# 3dpcp: normal computation front end and the k-d tree interface

A shallow embedding of

* `src/src/normals/calculate_normals.cc`: the option checks of `parse_options`,
  `validate` for `normal_method`, `mapNormalToRGB`, `computeEigenDecomposition`
  and `computePCA`;
* `src/include/slam6d/kd.h`: `Void`, `PtrAccessor` and the interface of `KDtree`.

A `double` is embedded as a rational number (exact arithmetic), a `std::string`
as the list of its characters, an exception as the error side of `Except`.
-/

namespace Slam6D

/-! ## calculate_normals.cc : data -/

/-- The enumeration `normal_method` (line 41). -/
inductive normal_method where
  | KNN_PCA
  | AKNN_PCA
  | PANO_PCA
  | PANO_SRI
deriving DecidableEq, Repr

/-- The two standard exceptions the front end throws, with their message. -/
inductive Exn where
  | logic_error (what : String)
  | runtime_error (what : String)
deriving DecidableEq, Repr

deriving instance DecidableEq for Except

/-- What the checks read from a `po::variables_map`: `count(name)` and the value
stored under `"normalMethod"`. -/
structure variables_map where
  count : String → Nat
  normalMethod : normal_method

/-- The map `po::store` fills: an option given on the command line has count one,
and `normalMethod`, declared with `default_value(KNN_PCA)` (line 122), is always
stored, with the given method or else the default. -/
def store (N : Option normal_method) (given : List String) : variables_map where
  count := fun name =>
    if name = "normalMethod" then 1 else if name ∈ given then 1 else 0
  normalMethod := N.getD normal_method.KNN_PCA

/-! ## calculate_normals.cc : option checks (lines 43-59, 174-205) -/

/-- The function `normal_option_dependency` (lines 43-50). -/
def normal_option_dependency (vm : variables_map) (ntype : normal_method)
    (option : String) : Except Exn Unit :=
  if vm.count "normalMethod" ≠ 0 ∧ vm.normalMethod = ntype then
    if vm.count option = 0 then
      Except.error (Exn.logic_error ("this normal method needs " ++ option ++ " to be set"))
    else Except.ok ()
  else Except.ok ()

/-- The function `normal_option_conflict` (lines 52-59). -/
def normal_option_conflict (vm : variables_map) (ntype : normal_method)
    (option : String) : Except Exn Unit :=
  if vm.count "normalMethod" ≠ 0 ∧ vm.normalMethod = ntype then
    if vm.count option ≠ 0 then
      Except.error (Exn.logic_error ("this normal method is incompatible with " ++ option))
    else Except.ok ()
  else Except.ok ()

open normal_method in
/-- The checks of `parse_options`, lines 174-205, in the order of the source
(line 191 repeats the `KNN_PCA` dependency on `knn`). -/
def parse_options_checks (vm : variables_map) : Except Exn Unit := do
  normal_option_dependency vm KNN_PCA "knn"
  normal_option_conflict vm KNN_PCA "kmin"
  normal_option_conflict vm KNN_PCA "kmax"
  normal_option_conflict vm KNN_PCA "alpha"
  normal_option_conflict vm KNN_PCA "width"
  normal_option_conflict vm KNN_PCA "height"
  normal_option_conflict vm KNN_PCA "factor"
  normal_option_conflict vm AKNN_PCA "knn"
  normal_option_dependency vm AKNN_PCA "kmin"
  normal_option_dependency vm AKNN_PCA "kmax"
  normal_option_dependency vm AKNN_PCA "alpha"
  normal_option_conflict vm AKNN_PCA "width"
  normal_option_conflict vm AKNN_PCA "height"
  normal_option_conflict vm AKNN_PCA "factor"
  normal_option_dependency vm KNN_PCA "knn"
  normal_option_conflict vm PANO_PCA "kmin"
  normal_option_conflict vm PANO_PCA "kmax"
  normal_option_conflict vm PANO_PCA "alpha"
  normal_option_dependency vm PANO_PCA "width"
  normal_option_dependency vm PANO_PCA "height"
  normal_option_conflict vm PANO_PCA "factor"
  normal_option_conflict vm PANO_SRI "knn"
  normal_option_conflict vm PANO_SRI "kmin"
  normal_option_conflict vm PANO_SRI "kmax"
  normal_option_conflict vm PANO_SRI "alpha"
  normal_option_conflict vm PANO_SRI "width"
  normal_option_conflict vm PANO_SRI "height"
  normal_option_dependency vm PANO_SRI "factor"

/-- The condition on the options given under which a method is accepted: the
options it needs are all given and those it excludes are not (for `PANO_PCA`, `knn`
is neither needed nor excluded). -/
def optionsAccepted (m : normal_method) (given : List String) : Prop :=
  match m with
  | normal_method.KNN_PCA =>
      "knn" ∈ given ∧ "kmin" ∉ given ∧ "kmax" ∉ given ∧ "alpha" ∉ given ∧
        "width" ∉ given ∧ "height" ∉ given ∧ "factor" ∉ given
  | normal_method.AKNN_PCA =>
      "kmin" ∈ given ∧ "kmax" ∈ given ∧ "alpha" ∈ given ∧ "knn" ∉ given ∧
        "width" ∉ given ∧ "height" ∉ given ∧ "factor" ∉ given
  | normal_method.PANO_PCA =>
      "width" ∈ given ∧ "height" ∈ given ∧ "kmin" ∉ given ∧ "kmax" ∉ given ∧
        "alpha" ∉ given ∧ "factor" ∉ given
  | normal_method.PANO_SRI =>
      "factor" ∈ given ∧ "knn" ∉ given ∧ "kmin" ∉ given ∧ "kmax" ∉ given ∧
        "alpha" ∉ given ∧ "width" ∉ given ∧ "height" ∉ given

/-! ## calculate_normals.cc : validate for normal_method (lines 76-86) -/

/-- The characters `std::string::c_str()` shows to a C function: those before the
first NUL. -/
def c_str (s : String) : List Char :=
  s.toList.takeWhile (fun c => c ≠ Char.ofNat 0)

/-- The function `tolower` of the C locale: only `A` to `Z` change. -/
def tolower (c : Char) : Char := c.toLower

/-- The function `strcasecmp` on two C strings (given without their terminator,
which reads as character code zero): the difference of the first two lowered
characters that differ. -/
def strcasecmp : List Char → List Char → Int
  | [], [] => 0
  | [], b :: _ => 0 - ((tolower b).toNat : Int)
  | a :: _, [] => ((tolower a).toNat : Int) - 0
  | a :: s1, b :: s2 =>
      if tolower a = tolower b then strcasecmp s1 s2
      else ((tolower a).toNat : Int) - ((tolower b).toNat : Int)

/-- The `boost::any& v` that `validate` assigns: empty, or holding a method. -/
abbrev boost_any := Option normal_method

open normal_method in
/-- The function `validate` for `normal_method` (lines 76-86): the outcome, and the
content of `v` afterwards (`v` is assigned only on the four successful branches). -/
def validate (v : boost_any) (values : List String) : Except Exn Unit × boost_any :=
  match values with
  | [] => (Except.error (Exn.runtime_error "Invalid model specification"), v)
  | arg :: _ =>
      if strcasecmp (c_str arg) (c_str "KNN_PCA") = 0 then (Except.ok (), some KNN_PCA)
      else if strcasecmp (c_str arg) (c_str "AKNN_PCA") = 0 then (Except.ok (), some AKNN_PCA)
      else if strcasecmp (c_str arg) (c_str "PANO_PCA") = 0 then (Except.ok (), some PANO_PCA)
      else if strcasecmp (c_str arg) (c_str "PANO_SRI") = 0 then (Except.ok (), some PANO_SRI)
      else (Except.error (Exn.runtime_error ("normal method " ++ arg ++ " is unknown")), v)

/-- The name of a method, as the enumeration and the help text spell it. -/
def methodName : normal_method → String
  | normal_method.KNN_PCA => "KNN_PCA"
  | normal_method.AKNN_PCA => "AKNN_PCA"
  | normal_method.PANO_PCA => "PANO_PCA"
  | normal_method.PANO_SRI => "PANO_SRI"

/-- Equality of two character sequences ignoring ASCII letter case. -/
def eqIgnoreCase (a b : List Char) : Prop :=
  a.map tolower = b.map tolower

instance (a b : List Char) : Decidable (eqIgnoreCase a b) := by
  unfold eqIgnoreCase; infer_instance

/-- An option value as `validate` receives it: `po::store` (lines 164-165) hands it
the tokens `po::command_line_parser(argc, argv)` cut from `argv`, which are
NUL-terminated, so no character of a value is NUL. -/
def commandLineToken (s : String) : Prop :=
  ∀ c ∈ s.toList, c ≠ Char.ofNat 0

instance (s : String) : Decidable (commandLineToken s) := by
  unfold commandLineToken; infer_instance

/-! ## calculate_normals.cc : mapNormalToRGB (lines 231-239) -/

/-- A `Point` of `normals/point.h`, as far as this file uses it: three doubles. -/
structure Point where
  x : ℚ
  y : ℚ
  z : ℚ
deriving DecidableEq

/-- The function `mapNormalToRGB` (lines 234-239); the `rgb` it fills is returned. -/
def mapNormalToRGB (normal : Point) : Point where
  x := 127.5 * normal.x + 127.5
  y := 127.5 * normal.y + 127.5
  z := 255.0 * |normal.z|

/-! ## calculate_normals.cc : computeEigenDecomposition and computePCA -/

/-- A point with the neighbours gathered for it (`normals/pointNeighbor.h`). -/
structure PointNeighbor where
  point : Point
  neighbors : List Point

/-- A 3 by 3 matrix of doubles; row and column `i` of NEWMAT are `i - 1` here. -/
abbrev Matrix3 := Fin 3 → Fin 3 → ℚ

/-- The centroid loop of `computeEigenDecomposition` (lines 279-289). -/
def centroid (neighbors : List Point) : Point :=
  let c := neighbors.foldl (fun c p => Point.mk (c.x + p.x) (c.y + p.y) (c.z + p.z))
    (Point.mk 0 0 0)
  Point.mk (c.x / (neighbors.length : ℚ)) (c.y / (neighbors.length : ℚ))
    (c.z / (neighbors.length : ℚ))

/-- Component `i` of a point, as the entry of a column vector. -/
def Point.get (p : Point) (i : Fin 3) : ℚ :=
  if i = 0 then p.x else if i = 1 then p.y else p.z

/-- The matrix `S` of `computeEigenDecomposition` (lines 291-303): the sum of the
outer products of the centred neighbours, every entry divided by their number. -/
def scatter (neighbors : List Point) : Matrix3 :=
  let c := centroid neighbors
  let S : Matrix3 := neighbors.foldl
    (fun S p =>
      let point_prime := Point.mk (p.x - c.x) (p.y - c.y) (p.z - c.z)
      fun j k => S j k + point_prime.get j * point_prime.get k)
    (fun _ _ => 0)
  fun j k => S j k / (neighbors.length : ℚ)

/-- The function `computeEigenDecomposition` (lines 276-315). NEWMAT's `Jacobi` is
not part of the repository: it is the parameter `Jacobi`, from the matrix to the
eigenvalues and the eigenvector matrix. -/
def computeEigenDecomposition (Jacobi : Matrix3 → (Fin 3 → ℚ) × Matrix3)
    (point : PointNeighbor) : (Fin 3 → ℚ) × Matrix3 :=
  Jacobi (scatter point.neighbors)

/-- The scalar product of two column vectors. -/
def dot (a b : Point) : ℚ := a.x * b.x + a.y * b.y + a.z * b.z

/-- The body of the loop of `computePCA` (lines 507-536): the normal pushed for one
point. NEWMAT's `NormFrobenius` is the parameter of that name. -/
def pcaNormal (Jacobi : Matrix3 → (Fin 3 → ℚ) × Matrix3) (NormFrobenius : Point → ℚ)
    (origin : Point) (flipnormals : Bool) (p : PointNeighbor) : Point :=
  if p.neighbors.length < 2 then Point.mk 0 0 0
  else
    let point_vector := Point.mk (p.point.x - origin.x) (p.point.y - origin.y)
      (p.point.z - origin.z)
    let nrm := NormFrobenius point_vector
    let point_vector := Point.mk (point_vector.x / nrm) (point_vector.y / nrm)
      (point_vector.z / nrm)
    let e_vectors := (computeEigenDecomposition Jacobi p).2
    let v1 := Point.mk (e_vectors 0 0) (e_vectors 1 0) (e_vectors 2 0)
    let angle := dot v1 point_vector
    if flipnormals = true ∧ angle < 0 then Point.mk (v1.x * (-1.0)) (v1.y * (-1.0)) (v1.z * (-1.0))
    else v1

/-- The function `computePCA` (lines 498-538): one normal is pushed per point, in
order, behind what `normals` already holds; `scan_pose` is `scan->get_rPos()`. -/
def computePCA (Jacobi : Matrix3 → (Fin 3 → ℚ) × Matrix3) (NormFrobenius : Point → ℚ)
    (scan_pose : Point) (points : List PointNeighbor) (normals : List Point)
    (flipnormals : Bool) : List Point :=
  normals ++ points.map (pcaNormal Jacobi NormFrobenius scan_pose flipnormals)

/-- A point of the wall `x = 1` with three neighbours on the wall. -/
def wallPoint : PointNeighbor where
  point := Point.mk 1 0 0
  neighbors := [Point.mk 1 0 0, Point.mk 1 1 0, Point.mk 1 0 1]

/-- A stand-in for `Jacobi` on the wall: the first eigenvector, the one `computePCA`
reads, is `(s, 0, 0)`, the unit normal of the wall for `s = 1` or `s = -1`. -/
def wallJacobi (s : ℚ) : Matrix3 → (Fin 3 → ℚ) × Matrix3 :=
  fun _ => (fun _ => 0, fun i j => if j = 0 then (if i = 0 then s else 0) else 0)

/-! ## kd.h : Void and PtrAccessor (lines 26-32) -/

/-- The empty payload type `struct Void { }`. -/
structure Void where
deriving DecidableEq

/-- A `double*`: the handle of a point, the address of its three coordinates. -/
abbrev DoublePtr := Nat

/-- What the caller's storage holds at each handle. -/
abbrev Memory := DoublePtr → Point

/-- The call operator of `PtrAccessor` (lines 29-31). -/
def PtrAccessor (_ : Void) (indices : DoublePtr) : DoublePtr := indices

/-! ## kd.h : KDtree (lines 41-49)

`kd.h` declares `KDtree` over `KDTreeImpl<Void, double*, PtrAccessor>`; the
implementation (`slam6d/kdTreeImpl.h`, `kd.cc`) is not among the sources, so the
tree, its construction and its two searches follow sections 3 and 4 of the
specification. -/

/-- The coordinates the tree uses for a handle: the accessor's result, read from
the caller's storage. -/
def coords (mem : Memory) (h : DoublePtr) : Point :=
  mem (PtrAccessor Void.mk h)

/-- The squared Euclidean distance of two points. -/
def Dist2 (a b : Point) : ℚ :=
  (a.x - b.x) * (a.x - b.x) + (a.y - b.y) * (a.y - b.y) + (a.z - b.z) * (a.z - b.z)

/-- Modelled from the spec: the tree node of section 3 (the node type of
`KDTreeImpl` is missing). A leaf holds a bucket of point handles; an internal node
holds a split axis, a split value and its two children, the first for the points
with `coord[axis] ≤ splitval`, the second for those with `coord[axis] > splitval`. -/
inductive KDNode where
  | leaf (p : List DoublePtr)
  | node (splitaxis : Fin 3) (splitval : ℚ) (child1 child2 : KDNode)
deriving DecidableEq, Repr

/-- All point handles below a node, first child first. -/
def KDNode.points : KDNode → List DoublePtr
  | KDNode.leaf p => p
  | KDNode.node _ _ c1 c2 => c1.points ++ c2.points

/-- Modelled from the spec: the invariant of section 3 at every internal node (the
node type of `KDTreeImpl` is missing): the handles of the first child have
`coord[axis] ≤ splitval`, those of the second `coord[axis] > splitval`. -/
def KDNode.Ordered (mem : Memory) : KDNode → Prop
  | KDNode.leaf _ => True
  | KDNode.node a s c1 c2 =>
      (∀ h ∈ c1.points, (coords mem h).get a ≤ s) ∧
      (∀ h ∈ c2.points, s < (coords mem h).get a) ∧
      c1.Ordered mem ∧ c2.Ordered mem

/-- The coordinates of a subset of handles along one axis. -/
def axisCoords (mem : Memory) (idx : List DoublePtr) (a : Fin 3) : List ℚ :=
  idx.map (fun h => (coords mem h).get a)

/-- The spread `max - min` of a list of coordinates (zero for the empty list). -/
def spread : List ℚ → ℚ
  | [] => 0
  | c :: cs => cs.foldl max c - cs.foldl min c

/-- Modelled from the spec: step 1 of the builder of section 4.1 (`create` of
`KDTreeImpl` is missing): the axis of greatest spread, the earlier axis on a tie. -/
def widestAxis (mem : Memory) (idx : List DoublePtr) : Fin 3 :=
  let dx := spread (axisCoords mem idx 0)
  let dy := spread (axisCoords mem idx 1)
  let dz := spread (axisCoords mem idx 2)
  if dy ≤ dx ∧ dz ≤ dx then 0 else if dz ≤ dy then 1 else 2

/-- Modelled from the spec: the builder of section 4.1 (`create` of `KDTreeImpl` is
missing). `bucket` is the leaf bucket threshold and `choose` picks the split value
from the coordinates along the chosen axis (section 4.1 allows the exact median or
an approximation of it). A subset of at most `bucket` handles becomes a leaf;
otherwise it is partitioned by `coord[axis] ≤ splitval` and `coord[axis] > splitval`
and both sides are built in turn. A subset the split value does not separate (one
side empty, as when all points coincide) becomes a leaf too. `fuel` bounds the
depth; `KDtree.create` passes the number of points, which every split decreases. -/
def KDNode.create (choose : List ℚ → ℚ) (bucket : Nat) (mem : Memory) :
    Nat → List DoublePtr → KDNode
  | 0, idx => KDNode.leaf idx
  | fuel + 1, idx =>
      if idx.length ≤ bucket then KDNode.leaf idx
      else
        let a := widestAxis mem idx
        let s := choose (axisCoords mem idx a)
        let left := idx.filter (fun h => (coords mem h).get a ≤ s)
        let right := idx.filter (fun h => s < (coords mem h).get a)
        if left.isEmpty ∨ right.isEmpty then KDNode.leaf idx
        else KDNode.node a s (KDNode.create choose bucket mem fuel left)
          (KDNode.create choose bucket mem fuel right)

/-- Modelled from the spec: the constructor `KDtree(double **pts, int n)` (its body
is missing), the builder of section 4.1 run on the `n` handles of `pts`. No points
give the empty index, a leaf without handles. -/
def KDtree.create (choose : List ℚ → ℚ) (bucket : Nat) (mem : Memory)
    (pts : List DoublePtr) : KDNode :=
  KDNode.create choose bucket mem pts.length pts

/-- Modelled from the spec: a split value of section 4.1, step 2 (`create` of
`KDTreeImpl` is missing): the lower median of the coordinates, or, when the median
is their maximum, the greatest coordinate below the maximum, so that both sides of
the partition are non-empty whenever two coordinates differ. -/
def medianSplit (cs : List ℚ) : ℚ :=
  let sorted := cs.insertionSort (fun a b => a ≤ b)
  let med := sorted.getD ((sorted.length - 1) / 2) 0
  let top := sorted.getLastD 0
  if med < top then med
  else ((sorted.filter (fun c => c < top)).getLastD med)

/-- A squared distance against a bound that may be infinite (`none`): `d ≤ b`. -/
def leBound (d : ℚ) : Option ℚ → Bool
  | none => true
  | some b => decide (d ≤ b)

/-- A squared distance against a bound that may be infinite (`none`): `d < b`. -/
def ltBound (d : ℚ) : Option ℚ → Bool
  | none => true
  | some b => decide (d < b)

/-- Modelled from the spec: the state of one nearest-neighbour query (the scratch
slot `params[threadNum]` of the missing `kdparams.h`): the closest handle found
and the running best squared distance, initialised to `maxdist2` (`none` is an
unbounded `maxdist2`). -/
structure KDParams where
  closest : Option DoublePtr
  closest_d2 : Option ℚ
deriving DecidableEq, Repr

/-- Modelled from the spec: the evaluation of one bucketed point in section 4.2.
Its squared distance is computed; it becomes the closest point when it is within
the bound and no point was found yet, or when it is strictly closer than the one
found (a tie keeps the point evaluated first). -/
def evalPoint (mem : Memory) (q : Point) (st : KDParams) (h : DoublePtr) : KDParams :=
  let myd2 := Dist2 q (coords mem h)
  let better := match st.closest with
    | none => leBound myd2 st.closest_d2
    | some _ => ltBound myd2 st.closest_d2
  if better then KDParams.mk (some h) (some myd2) else st

/-- Modelled from the spec: the pruning test of section 4.2 (`_FindClosest` of
`KDTreeImpl` is missing): the squared distance to the split plane is at least the
running best squared distance. -/
def pruned (myd : ℚ) (st : KDParams) : Bool :=
  match st.closest_d2 with
  | none => false
  | some b => decide (b ≤ myd * myd)

/-- Modelled from the spec: the search of section 4.2 (`_FindClosest` of
`KDTreeImpl` is missing). A leaf evaluates its bucket in order. An internal node
searches the child on the side of the query first, then the other child unless
the pruning test holds. The second component lists the handles evaluated, in the
order of evaluation. -/
def KDNode.FindClosest (mem : Memory) (q : Point) :
    KDNode → KDParams → KDParams × List DoublePtr
  | KDNode.leaf p, st => (p.foldl (evalPoint mem q) st, p)
  | KDNode.node a s c1 c2, st =>
      let myd := q.get a - s
      if q.get a ≤ s then
        let r1 := c1.FindClosest mem q st
        if pruned myd r1.1 then r1
        else
          let r2 := c2.FindClosest mem q r1.1
          (r2.1, r1.2 ++ r2.2)
      else
        let r1 := c2.FindClosest mem q st
        if pruned myd r1.1 then r1
        else
          let r2 := c1.FindClosest mem q r1.1
          (r2.1, r1.2 ++ r2.2)

/-- Modelled from the spec: `KDtree::FindClosest(_p, maxdist2, threadNum)` (declared
at line 47, body missing), section 4.2: the closest handle within the bound, or
none. The scratch slot `threadNum` selects is the state the search passes along.
Section 4.2 constrains `maxdist2` to be non-negative; a negative bound admits no
point. -/
def KDtree.FindClosest (mem : Memory) (tree : KDNode) (_p : Point) (maxdist2 : Option ℚ) :
    Option DoublePtr :=
  (tree.FindClosest mem _p (KDParams.mk none maxdist2)).1.closest

/-- The handles `KDtree::FindClosest` evaluates, in the order of evaluation. -/
def KDtree.evaluated (mem : Memory) (tree : KDNode) (_p : Point) (maxdist2 : Option ℚ) :
    List DoublePtr :=
  (tree.FindClosest mem _p (KDParams.mk none maxdist2)).2

/-- The traversal order of the descent without pruning: at every internal node the
child on the side of the query first, then the other child. -/
def KDNode.nearFirst (q : Point) : KDNode → List DoublePtr
  | KDNode.leaf p => p
  | KDNode.node a s c1 c2 =>
      if q.get a ≤ s then c1.nearFirst q ++ c2.nearFirst q
      else c2.nearFirst q ++ c1.nearFirst q

/-- Modelled from the spec: the bounded max-heap of section 4.3, as the list of its
entries `(squaredDistance, handle)` in descending order of distance: the top, the
worst accepted candidate, is the head. -/
abbrev KNNHeap := List (ℚ × DoublePtr)

/-- Modelled from the spec: insertion into the heap of section 4.3, keeping the
descending order (the heap of the missing `KDTreeImpl`). -/
def KNNHeap.push (e : ℚ × DoublePtr) : KNNHeap → KNNHeap
  | [] => [e]
  | x :: xs => if x.1 ≤ e.1 then e :: x :: xs else x :: KNNHeap.push e xs

/-- Modelled from the spec: a candidate offered to the heap of capacity `k`
(section 4.3): inserted when the heap has fewer than `k` entries, otherwise it
replaces the worst entry only if strictly closer. -/
def KNNHeap.offer (k : Nat) (heap : KNNHeap) (e : ℚ × DoublePtr) : KNNHeap :=
  if heap.length < k then KNNHeap.push e heap
  else
    match heap with
    | [] => heap
    | top :: rest => if e.1 < top.1 then KNNHeap.push e rest else heap

/-- Modelled from the spec: the evaluation of one bucketed point in section 4.3: a
point within `maxdist2` (inclusive) is offered to the heap. -/
def knnPoint (mem : Memory) (q : Point) (maxdist2 : Option ℚ) (k : Nat) (heap : KNNHeap)
    (h : DoublePtr) : KNNHeap :=
  let myd2 := Dist2 q (coords mem h)
  if leBound myd2 maxdist2 then KNNHeap.offer k heap (myd2, h) else heap

/-- Modelled from the spec: the pruning test of section 4.3 (`_FindClosestKNNRange`
of `KDTreeImpl` is missing): the heap is full and the squared distance to the split
plane exceeds the heap's maximum. -/
def knnPruned (k : Nat) (myd : ℚ) (heap : KNNHeap) : Bool :=
  match heap with
  | [] => false
  | top :: _ => decide (heap.length = k) && decide (top.1 < myd * myd)

/-- Modelled from the spec: the search of section 4.3 (`_FindClosestKNNRange` of
`KDTreeImpl` is missing): the descent of section 4.2 with the heap in place of the
single best candidate. -/
def KDNode.FindClosestKNNRange (mem : Memory) (q : Point) (maxdist2 : Option ℚ) (k : Nat) :
    KDNode → KNNHeap → KNNHeap
  | KDNode.leaf p, heap => p.foldl (knnPoint mem q maxdist2 k) heap
  | KDNode.node a s c1 c2, heap =>
      let myd := q.get a - s
      if q.get a ≤ s then
        let heap := c1.FindClosestKNNRange mem q maxdist2 k heap
        if knnPruned k myd heap then heap
        else c2.FindClosestKNNRange mem q maxdist2 k heap
      else
        let heap := c2.FindClosestKNNRange mem q maxdist2 k heap
        if knnPruned k myd heap then heap
        else c1.FindClosestKNNRange mem q maxdist2 k heap

/-- Modelled from the spec: `KDtree::FindClosestKNNRange(_p, maxdist2, closest_list,
knn, threadNum)` (declared at line 48, body missing), section 4.3: what
`closest_list` holds afterwards. `knn = 0` gives the empty list without a
traversal; otherwise the heap is extracted nearest first. -/
def KDtree.FindClosestKNNRange (mem : Memory) (tree : KDNode) (_p : Point)
    (maxdist2 : Option ℚ) (knn : Nat) : List DoublePtr :=
  if knn = 0 then []
  else ((tree.FindClosestKNNRange mem _p maxdist2 knn []).reverse).map Prod.snd

/-- The handles of `pts` within distance `r` of `q`, bound inclusive, compared by
squared distances (for a radius `r ≥ 0`, distance at most `r`). -/
def inRange (mem : Memory) (q : Point) (r : ℚ) (pts : List DoublePtr) : List DoublePtr :=
  pts.filter (fun h => Dist2 q (coords mem h) ≤ r * r)

/-- The brute-force answer: the handles in range, sorted by distance to `q`, cut
after `k`. -/
def bruteForceKNN (mem : Memory) (q : Point) (r : ℚ) (k : Nat) (pts : List DoublePtr) :
    List DoublePtr :=
  ((inRange mem q r pts).insertionSort
    (fun a b => Dist2 q (coords mem a) ≤ Dist2 q (coords mem b))).take k

/-- A state of the nearest-neighbour search in which a finite running best comes
from a point found (proof invariant). -/
def Settled (st : KDParams) : Prop :=
  st.closest = none → st.closest_d2 = none

/-- The candidates a search offers to the heap when it evaluates the handles `l`:
those within the bound, with their squared distance. -/
def candidates (mem : Memory) (q : Point) (maxdist2 : Option ℚ) (l : List DoublePtr) :
    KNNHeap :=
  (l.filter (fun h => leBound (Dist2 q (coords mem h)) maxdist2)).map
    (fun h => (Dist2 q (coords mem h), h))

/-- The heap holds `k` best of the candidates `seen` (proof invariant): it is in
descending order, has at most `k` entries, and `seen` splits into the heap and a
rest no entry of which is closer than an entry of the heap; the rest is empty
unless the heap is full. -/
def KBest (k : Nat) (heap seen : KNNHeap) : Prop :=
  heap.Pairwise (fun a b => b.1 ≤ a.1) ∧ heap.length ≤ k ∧
    ∃ rest : KNNHeap, seen.Perm (heap ++ rest) ∧
      (∀ x ∈ heap, ∀ y ∈ rest, x.1 ≤ y.1) ∧ (rest ≠ [] → heap.length = k)

/-- The storage of the concrete scenario of section 8: handles `0` to `3` hold
`(0,0,0)`, `(1,0,0)`, `(0,2,0)`, `(5,5,5)`. -/
def scenarioMem : Memory := fun h =>
  if h = 0 then Point.mk 0 0 0
  else if h = 1 then Point.mk 1 0 0
  else if h = 2 then Point.mk 0 2 0
  else Point.mk 5 5 5

/-! ## Theorems : calculate_normals.cc -/

theorem Char_toNat_injective {a b : Char} (h : a.toNat = b.toNat) : a = b := by
  apply Char.ext
  apply UInt32.ext
  exact h

theorem tolower_toNat_ne_zero {c : Char} (h : c ≠ Char.ofNat 0) : (tolower c).toNat ≠ 0 := by
  have hc : c.toNat ≠ 0 := by
    intro h0
    apply h
    apply Char_toNat_injective
    simpa using h0
  unfold tolower Char.toLower
  simp only []
  split
  · rename_i hr
    obtain ⟨h65, h90⟩ := hr
    generalize c.toNat = n at h65 h90
    interval_cases n <;> decide
  · exact hc

theorem strcasecmp_eq_zero_iff (s1 s2 : List Char) (h1 : ∀ c ∈ s1, c ≠ Char.ofNat 0)
    (h2 : ∀ c ∈ s2, c ≠ Char.ofNat 0) :
    strcasecmp s1 s2 = 0 ↔ eqIgnoreCase s1 s2 := by
  induction s1 generalizing s2 with
  | nil =>
    cases s2 with
    | nil => simp [strcasecmp, eqIgnoreCase]
    | cons b s2 =>
      have := tolower_toNat_ne_zero (h2 b (by simp))
      simp [strcasecmp, eqIgnoreCase]
      omega
  | cons a s1 ih =>
    cases s2 with
    | nil =>
      have := tolower_toNat_ne_zero (h1 a (by simp))
      simp [strcasecmp, eqIgnoreCase]
      omega
    | cons b s2 =>
      have ih' := ih s2 (fun c hc => h1 c (by simp [hc])) (fun c hc => h2 c (by simp [hc]))
      unfold strcasecmp
      by_cases hab : tolower a = tolower b
      · simp only [hab, if_true]
        rw [ih']
        simp [eqIgnoreCase, hab]
      · simp only [hab, if_false]
        have hne : (tolower a).toNat ≠ (tolower b).toNat := fun h => hab (Char_toNat_injective h)
        simp [eqIgnoreCase, hab]
        omega

theorem c_str_no_nul (s : String) : ∀ c ∈ c_str s, c ≠ Char.ofNat 0 := by
  intro c hc
  have := List.mem_takeWhile_imp hc
  simpa using this

/-- The outcome of `validate` on a non-empty list, in terms of the C string of the
first value. -/
theorem validate_cons (v : boost_any) (arg : String) (rest : List String) :
    (∀ m, validate v (arg :: rest) = (Except.ok (), some m) ↔
      eqIgnoreCase (c_str arg) (methodName m).toList) ∧
    ((∃ m, eqIgnoreCase (c_str arg) (methodName m).toList) ∨
      ∃ w, validate v (arg :: rest) = (Except.error (Exn.runtime_error w), v)) := by
  have e1 := strcasecmp_eq_zero_iff (c_str arg) (c_str "KNN_PCA") (c_str_no_nul _) (c_str_no_nul _)
  have e2 := strcasecmp_eq_zero_iff (c_str arg) (c_str "AKNN_PCA") (c_str_no_nul _) (c_str_no_nul _)
  have e3 := strcasecmp_eq_zero_iff (c_str arg) (c_str "PANO_PCA") (c_str_no_nul _) (c_str_no_nul _)
  have e4 := strcasecmp_eq_zero_iff (c_str arg) (c_str "PANO_SRI") (c_str_no_nul _) (c_str_no_nul _)
  have c1 : c_str "KNN_PCA" = "KNN_PCA".toList := by decide
  have c2 : c_str "AKNN_PCA" = "AKNN_PCA".toList := by decide
  have c3 : c_str "PANO_PCA" = "PANO_PCA".toList := by decide
  have c4 : c_str "PANO_SRI" = "PANO_SRI".toList := by decide
  rw [c1] at e1; rw [c2] at e2; rw [c3] at e3; rw [c4] at e4
  have d12 : ∀ l, eqIgnoreCase l "KNN_PCA".toList → ¬ eqIgnoreCase l "AKNN_PCA".toList := by
    intro l h h'; unfold eqIgnoreCase at h h'; rw [h] at h'; revert h'; decide
  have d13 : ∀ l, eqIgnoreCase l "KNN_PCA".toList → ¬ eqIgnoreCase l "PANO_PCA".toList := by
    intro l h h'; unfold eqIgnoreCase at h h'; rw [h] at h'; revert h'; decide
  have d14 : ∀ l, eqIgnoreCase l "KNN_PCA".toList → ¬ eqIgnoreCase l "PANO_SRI".toList := by
    intro l h h'; unfold eqIgnoreCase at h h'; rw [h] at h'; revert h'; decide
  have d23 : ∀ l, eqIgnoreCase l "AKNN_PCA".toList → ¬ eqIgnoreCase l "PANO_PCA".toList := by
    intro l h h'; unfold eqIgnoreCase at h h'; rw [h] at h'; revert h'; decide
  have d24 : ∀ l, eqIgnoreCase l "AKNN_PCA".toList → ¬ eqIgnoreCase l "PANO_SRI".toList := by
    intro l h h'; unfold eqIgnoreCase at h h'; rw [h] at h'; revert h'; decide
  have d34 : ∀ l, eqIgnoreCase l "PANO_PCA".toList → ¬ eqIgnoreCase l "PANO_SRI".toList := by
    intro l h h'; unfold eqIgnoreCase at h h'; rw [h] at h'; revert h'; decide
  simp only [validate, c1, c2, c3, c4, e1, e2, e3, e4]
  by_cases h1 : eqIgnoreCase (c_str arg) "KNN_PCA".toList
  · have := d12 _ h1; have := d13 _ h1; have := d14 _ h1
    refine ⟨fun m => ?_, Or.inl ⟨normal_method.KNN_PCA, h1⟩⟩
    cases m <;> simp_all [methodName]
  · by_cases h2 : eqIgnoreCase (c_str arg) "AKNN_PCA".toList
    · have := d23 _ h2; have := d24 _ h2
      refine ⟨fun m => ?_, Or.inl ⟨normal_method.AKNN_PCA, h2⟩⟩
      cases m <;> simp_all [methodName]
    · by_cases h3 : eqIgnoreCase (c_str arg) "PANO_PCA".toList
      · have := d34 _ h3
        refine ⟨fun m => ?_, Or.inl ⟨normal_method.PANO_PCA, h3⟩⟩
        cases m <;> simp_all [methodName]
      · by_cases h4 : eqIgnoreCase (c_str arg) "PANO_SRI".toList
        · refine ⟨fun m => ?_, Or.inl ⟨normal_method.PANO_SRI, h4⟩⟩
          cases m <;> simp_all [methodName]
        · refine ⟨fun m => ?_, Or.inr ⟨_, by rw [if_neg h1, if_neg h2, if_neg h3, if_neg h4]⟩⟩
          cases m <;> simp_all [methodName]


/-- A value without a NUL character, as every command-line token is, is compared
whole: then `validate` stores the method whose name the first value equals
ignoring ASCII letter case, and raises `runtime_error`, leaving `v` as it was,
when there is none. -/
theorem validate_cons_of_no_nul (v : boost_any) (arg : String) (rest : List String)
    (h : ∀ c ∈ arg.toList, c ≠ Char.ofNat 0) :
    (∀ m, validate v (arg :: rest) = (Except.ok (), some m) ↔
      eqIgnoreCase arg.toList (methodName m).toList) ∧
    ((∃ m, eqIgnoreCase arg.toList (methodName m).toList) ∨
      ∃ w, validate v (arg :: rest) = (Except.error (Exn.runtime_error w), v)) := by
  have e : c_str arg = arg.toList := by
    unfold c_str
    rw [List.takeWhile_eq_self_iff]
    intro c hc
    simpa using h c hc
  have := validate_cons v arg rest
  rw [e] at this
  exact this

/-- C5: for every list of option values (command-line tokens), `validate` for
`normal_method` raises `runtime_error` on the empty list and leaves `v` as it was;
otherwise it stores method `m` and succeeds exactly when the first value equals the
name of `m` ignoring ASCII letter case, and when the first value equals none of the
four names it raises `runtime_error` and leaves `v` as it was. -/
theorem validate_normal_method (v : boost_any) (values : List String)
    (htok : ∀ s ∈ values, commandLineToken s) :
    match values with
    | [] => ∃ w, validate v values = (Except.error (Exn.runtime_error w), v)
    | arg :: _ =>
        (∀ m, validate v values = (Except.ok (), some m) ↔
          eqIgnoreCase arg.toList (methodName m).toList) ∧
        ((∃ m, eqIgnoreCase arg.toList (methodName m).toList) ∨
          ∃ w, validate v values = (Except.error (Exn.runtime_error w), v)) := by
  cases values with
  | nil => exact ⟨_, rfl⟩
  | cons arg rest => exact validate_cons_of_no_nul v arg rest (htok arg (by simp))

/-- C5 (witness): the values `knn_pca` and `5` are command-line tokens; the first one
equals the name `KNN_PCA` ignoring letter case and `validate` stores `KNN_PCA`; the
value `knn` is no name and leaves the `PANO_SRI` that `v` held. -/
theorem validate_normal_method_witness :
    (∀ s ∈ ["knn_pca", "5"], commandLineToken s) ∧
    ((∀ m, validate none ["knn_pca", "5"] = (Except.ok (), some m) ↔
        eqIgnoreCase "knn_pca".toList (methodName m).toList) ∧
      ((∃ m, eqIgnoreCase "knn_pca".toList (methodName m).toList) ∨
        ∃ w, validate none ["knn_pca", "5"] = (Except.error (Exn.runtime_error w), none))) ∧
    validate none ["knn_pca", "5"] = (Except.ok (), some normal_method.KNN_PCA) ∧
    (validate (some normal_method.PANO_SRI) ["knn"]).2 = some normal_method.PANO_SRI :=
  ⟨by decide, validate_normal_method none ["knn_pca", "5"] (by decide), by decide, by decide⟩

/-- C4: for every selected method (`KNN_PCA` when `-N` is absent) and every set of
options given, the checks of `parse_options` complete without an exception exactly
when the options the method needs are given and those it excludes are not; when
they do not complete, what is thrown is a `logic_error`. -/
theorem parse_options_checks_ok_iff (N : Option normal_method) (given : List String) :
    (parse_options_checks (store N given) = Except.ok () ↔
      optionsAccepted (N.getD normal_method.KNN_PCA) given) ∧
    (parse_options_checks (store N given) = Except.ok () ∨
      ∃ w, parse_options_checks (store N given) = Except.error (Exn.logic_error w)) := by
  cases hN : N.getD normal_method.KNN_PCA <;>
  simp only [parse_options_checks, normal_option_dependency, normal_option_conflict, store, hN,
    optionsAccepted] <;>
  by_cases h1 : "knn" ∈ given <;> by_cases h2 : "kmin" ∈ given <;> by_cases h3 : "kmax" ∈ given <;>
  by_cases h4 : "alpha" ∈ given <;> by_cases h5 : "width" ∈ given <;>
  by_cases h6 : "height" ∈ given <;> by_cases h7 : "factor" ∈ given <;>
  simp [h1, h2, h3, h4, h5, h6, h7, bind, Except.bind]

/-- C7: the red and green channels of `mapNormalToRGB` are `127.5 * c + 127.5`, the
blue channel is `255 * |z|`: it is `255`, `0`, `255` for `z = 1`, `0`, `-1`, and no
constants `a`, `b` make the blue channel `a * z + b` for every normal. -/
theorem mapNormalToRGB_blue_not_linear :
    (∀ n : Point, (mapNormalToRGB n).x = 127.5 * n.x + 127.5 ∧
      (mapNormalToRGB n).y = 127.5 * n.y + 127.5 ∧ (mapNormalToRGB n).z = 255 * |n.z|) ∧
    ((mapNormalToRGB (Point.mk 0 0 1)).z = 255 ∧ (mapNormalToRGB (Point.mk 0 0 0)).z = 0 ∧
      (mapNormalToRGB (Point.mk 0 0 (-1))).z = 255) ∧
    ¬ ∃ a b : ℚ, ∀ n : Point, (mapNormalToRGB n).z = a * n.z + b := by
  have hz : ∀ n : Point, (mapNormalToRGB n).z = 255 * |n.z| := by
    intro n; simp [mapNormalToRGB]; norm_num
  refine ⟨fun n => ⟨rfl, rfl, hz n⟩, ⟨?_, ?_, ?_⟩, ?_⟩
  · rw [hz]; norm_num
  · rw [hz]; norm_num
  · rw [hz]; norm_num
  · rintro ⟨a, b, h⟩
    have h0 := h (Point.mk 0 0 0)
    have h1 := h (Point.mk 0 0 1)
    have h2 := h (Point.mk 0 0 (-1))
    rw [hz] at h0 h1 h2
    norm_num at h0 h1 h2
    linarith

/-- With `flipnormals` set, the normal `computePCA` pushes for a point with at least
two neighbours has a non-negative scalar product with the vector from the scan
position to the point, whenever the norm of that vector is positive. -/
theorem pcaNormal_flip_dot_nonneg (Jacobi : Matrix3 → (Fin 3 → ℚ) × Matrix3)
    (NormFrobenius : Point → ℚ) (origin : Point) (p : PointNeighbor)
    (hk : 2 ≤ p.neighbors.length)
    (hn : 0 < NormFrobenius (Point.mk (p.point.x - origin.x) (p.point.y - origin.y)
      (p.point.z - origin.z))) :
    0 ≤ dot (pcaNormal Jacobi NormFrobenius origin true p)
      (Point.mk (p.point.x - origin.x) (p.point.y - origin.y) (p.point.z - origin.z)) := by
  have hk' : ¬ p.neighbors.length < 2 := by omega
  simp only [pcaNormal, hk', if_false, true_and]
  set nrm := NormFrobenius (Point.mk (p.point.x - origin.x) (p.point.y - origin.y)
      (p.point.z - origin.z)) with hnrm
  set e := (computeEigenDecomposition Jacobi p).2 with he
  have key : dot (Point.mk (e 0 0) (e 1 0) (e 2 0))
      (Point.mk ((p.point.x - origin.x) / nrm) ((p.point.y - origin.y) / nrm)
        ((p.point.z - origin.z) / nrm)) =
      dot (Point.mk (e 0 0) (e 1 0) (e 2 0))
        (Point.mk (p.point.x - origin.x) (p.point.y - origin.y) (p.point.z - origin.z)) / nrm := by
    simp only [dot]; field_simp
  split
  · rename_i hneg
    rw [key] at hneg
    have hd : dot (Point.mk (e 0 0) (e 1 0) (e 2 0))
        (Point.mk (p.point.x - origin.x) (p.point.y - origin.y) (p.point.z - origin.z)) < 0 := by
      by_contra hcon
      push_neg at hcon
      exact absurd hneg (not_lt.mpr (div_nonneg hcon hn.le))
    simp only [dot] at hd ⊢
    norm_num
    linarith
  · rename_i hpos
    rw [key] at hpos
    push_neg at hpos
    by_contra hcon
    push_neg at hcon
    exact absurd hpos (not_le.mpr (div_neg_of_neg_of_pos hcon hn))

/-- C6: at the scan position `(0,0,0)`, for the point `(1,0,0)` of the wall `x = 1`
and either sign of the unit eigenvector `(s,0,0)` the decomposition may return,
`computePCA` with `flipnormals` pushes the normal `(1,0,0)`: its scalar product
with scan position minus point is `-1`, so it points away from the scan pose. -/
theorem computePCA_flip_points_away (Jacobi : Matrix3 → (Fin 3 → ℚ) × Matrix3)
    (NormFrobenius : Point → ℚ)
    (hJ : ((Jacobi (scatter wallPoint.neighbors)).2 0 0 = 1 ∨
        (Jacobi (scatter wallPoint.neighbors)).2 0 0 = -1) ∧
      (Jacobi (scatter wallPoint.neighbors)).2 1 0 = 0 ∧
      (Jacobi (scatter wallPoint.neighbors)).2 2 0 = 0)
    (hn : NormFrobenius (Point.mk 1 0 0) = 1) :
    computePCA Jacobi NormFrobenius (Point.mk 0 0 0) [wallPoint] [] true = [Point.mk 1 0 0] ∧
      dot (Point.mk 1 0 0) (Point.mk (0 - 1) (0 - 0) (0 - 0)) = -1 := by
  obtain ⟨h0, h1, h2⟩ := hJ
  refine ⟨?_, by simp [dot]⟩
  have hw : wallPoint.point = Point.mk 1 0 0 := rfl
  have hl : ¬ wallPoint.neighbors.length < 2 := by decide
  simp only [computePCA, List.map, List.nil_append, pcaNormal, hl, if_false,
    computeEigenDecomposition, hw, sub_zero, hn, div_one, h1, h2, dot, true_and]
  rcases h0 with h0 | h0 <;> rw [h0] <;> norm_num

/-- C6 (witness): the decomposition stand-in `wallJacobi 1` and a norm that is `1`
on the unit vector. -/
theorem computePCA_flip_points_away_witness :
    computePCA (wallJacobi 1) (fun v => |v.x| + |v.y| + |v.z|) (Point.mk 0 0 0) [wallPoint] []
        true = [Point.mk 1 0 0] ∧
      dot (Point.mk 1 0 0) (Point.mk (0 - 1) (0 - 0) (0 - 0)) = -1 :=
  computePCA_flip_points_away (wallJacobi 1) (fun v => |v.x| + |v.y| + |v.z|)
    ⟨Or.inl rfl, rfl, rfl⟩ (by simp)

/-! ## Theorems : kd.h -/

/-- C3: `PtrAccessor` returns the handle it is given, whatever the payload, so
the coordinates read through it from any storage are those stored at the caller's
own handle. -/
theorem PtrAccessor_returns_its_handle (v : Void) (indices : DoublePtr) :
    PtrAccessor v indices = indices ∧
      ∀ mem : Memory, mem (PtrAccessor v indices) = mem indices :=
  ⟨rfl, fun _ => rfl⟩

/-! ## Theorems : the builder -/

theorem create_points_perm (choose : List ℚ → ℚ) (bucket : Nat) (mem : Memory) (fuel : Nat) :
    ∀ idx : List DoublePtr, (KDNode.create choose bucket mem fuel idx).points.Perm idx := by
  induction fuel with
  | zero => intro idx; simp [KDNode.create, KDNode.points]
  | succ n ih =>
    intro idx
    unfold KDNode.create
    by_cases hb : idx.length ≤ bucket
    · simp [hb, KDNode.points]
    · simp only [hb, if_false]
      split
      · simp [KDNode.points]
      · simp only [KDNode.points]
        refine ((ih _).append (ih _)).trans ?_
        have h := List.filter_append_perm
          (fun h => decide ((coords mem h).get (widestAxis mem idx) ≤
            choose (axisCoords mem idx (widestAxis mem idx)))) idx
        have e : (fun h => decide (choose (axisCoords mem idx (widestAxis mem idx)) <
              (coords mem h).get (widestAxis mem idx))) =
            (fun x => !(fun h => decide ((coords mem h).get (widestAxis mem idx) ≤
              choose (axisCoords mem idx (widestAxis mem idx)))) x) := by
          funext h
          by_cases hc : (coords mem h).get (widestAxis mem idx) ≤
              choose (axisCoords mem idx (widestAxis mem idx))
          · simp [hc, not_lt.mpr hc]
          · simp [hc, not_le.mp hc]
        rw [e]
        exact h

theorem create_ordered (choose : List ℚ → ℚ) (bucket : Nat) (mem : Memory) (fuel : Nat) :
    ∀ idx : List DoublePtr, (KDNode.create choose bucket mem fuel idx).Ordered mem := by
  induction fuel with
  | zero => intro idx; simp [KDNode.create, KDNode.Ordered]
  | succ n ih =>
    intro idx
    unfold KDNode.create
    by_cases hb : idx.length ≤ bucket
    · simp [hb, KDNode.Ordered]
    · simp only [hb, if_false]
      split
      · simp [KDNode.Ordered]
      · simp only [KDNode.Ordered]
        refine ⟨?_, ?_, ih _, ih _⟩
        · intro h hh
          have := ((create_points_perm choose bucket mem n _).mem_iff).mp hh
          simpa using (List.mem_filter.mp this).2
        · intro h hh
          have := ((create_points_perm choose bucket mem n _).mem_iff).mp hh
          simpa using (List.mem_filter.mp this).2

theorem nearFirst_perm (q : Point) : ∀ t : KDNode, (t.nearFirst q).Perm t.points := by
  intro t
  induction t with
  | leaf p => simp [KDNode.nearFirst, KDNode.points]
  | node a s c1 c2 ih1 ih2 =>
    simp only [KDNode.nearFirst, KDNode.points]
    split
    · exact ih1.append ih2
    · exact (ih2.append ih1).trans List.perm_append_comm

theorem partition_length (mem : Memory) (a : Fin 3) (s : ℚ) (idx : List DoublePtr) :
    (idx.filter (fun h => decide ((coords mem h).get a ≤ s))).length +
      (idx.filter (fun h => decide (s < (coords mem h).get a))).length = idx.length := by
  induction idx with
  | nil => rfl
  | cons h l ih =>
    by_cases hc : (coords mem h).get a ≤ s
    · simp only [List.filter_cons, hc, not_lt.mpr hc, decide_True, decide_False, if_true,
        List.length_cons]
      simp only [Bool.false_eq_true, if_false]
      omega
    · simp only [List.filter_cons, hc, not_le.mp hc, decide_True, decide_False, if_true,
        List.length_cons]
      simp only [Bool.false_eq_true, if_false]
      omega

/-- The depth bound of the builder is never what stops it: with any two bounds of
at least the number of handles it builds the same tree. -/
theorem create_fuel_irrelevant (choose : List ℚ → ℚ) (bucket : Nat) (mem : Memory) :
    ∀ (fuel1 fuel2 : Nat) (idx : List DoublePtr), idx.length ≤ fuel1 → idx.length ≤ fuel2 →
      KDNode.create choose bucket mem fuel1 idx = KDNode.create choose bucket mem fuel2 idx := by
  intro fuel1
  induction fuel1 with
  | zero =>
    intro fuel2 idx h1 _
    have : idx = [] := List.eq_nil_of_length_eq_zero (by omega)
    subst this
    cases fuel2 with
    | zero => rfl
    | succ m => simp [KDNode.create]
  | succ n ih =>
    intro fuel2 idx h1 h2
    cases fuel2 with
    | zero =>
      have : idx = [] := List.eq_nil_of_length_eq_zero (by omega)
      subst this
      simp [KDNode.create]
    | succ m =>
      unfold KDNode.create
      by_cases hb : idx.length ≤ bucket
      · simp [hb]
      · simp only [hb, if_false]
        split
        · rfl
        · rename_i hne
          have hlen := partition_length mem (widestAxis mem idx)
            (choose (axisCoords mem idx (widestAxis mem idx))) idx
          have hl : 0 < (idx.filter (fun h => decide ((coords mem h).get (widestAxis mem idx) ≤
              choose (axisCoords mem idx (widestAxis mem idx))))).length := by
            apply List.length_pos.mpr
            intro h0; apply hne; left; rw [h0]; rfl
          have hr : 0 < (idx.filter (fun h => decide (choose (axisCoords mem idx
              (widestAxis mem idx)) < (coords mem h).get (widestAxis mem idx)))).length := by
            apply List.length_pos.mpr
            intro h0; apply hne; right; rw [h0]; rfl
          rw [ih m _ (by omega) (by omega), ih m _ (by omega) (by omega)]

theorem sorted_le_getLastD (l : List ℚ) (hs : l.Sorted (fun a b => a ≤ b)) :
    ∀ x ∈ l, x ≤ l.getLastD 0 := by
  induction l with
  | nil => intro x hx; simp at hx
  | cons a l ih =>
    intro x hx
    have hp := List.pairwise_cons.mp hs
    cases l with
    | nil =>
      simp at hx
      simp [hx]
    | cons b l' =>
      have ih' := ih hp.2
      have e : (a :: b :: l').getLastD 0 = (b :: l').getLastD 0 := by
        simp [List.getLastD]
      rw [e]
      rcases List.mem_cons.mp hx with rfl | hx'
      · exact le_trans (hp.1 b (by simp)) (ih' b (by simp))
      · exact ih' x hx'

theorem getLastD_mem_cons (l : List ℚ) : ∀ d : ℚ, l.getLastD d ∈ d :: l := by
  induction l with
  | nil => intro d; simp
  | cons a l ih =>
    intro d
    rw [List.getLastD_cons]
    exact List.mem_cons_of_mem d (ih a)

theorem getLastD_mem (l : List ℚ) (d : ℚ) (hl : l ≠ []) : l.getLastD d ∈ l := by
  cases l with
  | nil => exact absurd rfl hl
  | cons a l =>
    rw [List.getLastD_cons]
    exact getLastD_mem_cons l a

/-- The split value `medianSplit` separates coordinates that are not all equal: some
coordinate is at most the split value and some coordinate is above it. -/
theorem medianSplit_separates (cs : List ℚ) (a b : ℚ) (ha : a ∈ cs) (hb : b ∈ cs) (hab : a ≠ b) :
    (∃ x ∈ cs, x ≤ medianSplit cs) ∧ (∃ y ∈ cs, medianSplit cs < y) := by
  have hperm := List.perm_insertionSort (fun a b : ℚ => a ≤ b) cs
  have hsort := List.sorted_insertionSort (fun a b : ℚ => a ≤ b) cs
  set sorted := cs.insertionSort (fun a b => a ≤ b) with hsd
  have hne : sorted ≠ [] := by
    intro h0
    have : a ∈ sorted := (hperm.mem_iff).mpr ha
    rw [h0] at this
    simp at this
  have htop_mem : sorted.getLastD 0 ∈ sorted := getLastD_mem sorted 0 hne
  have htop : ∀ x ∈ sorted, x ≤ sorted.getLastD 0 := sorted_le_getLastD sorted hsort
  have hlen : 0 < sorted.length := List.length_pos.mpr hne
  have hmed_mem : sorted.getD ((sorted.length - 1) / 2) 0 ∈ sorted := by
    have hi : (sorted.length - 1) / 2 < sorted.length := by omega
    rw [List.getD_eq_getElem _ _ hi]
    exact List.getElem_mem _
  unfold medianSplit
  simp only []
  rw [← hsd]
  split
  · rename_i hlt
    exact ⟨⟨_, (hperm.mem_iff).mp hmed_mem, le_refl _⟩, ⟨_, (hperm.mem_iff).mp htop_mem, hlt⟩⟩
  · have hex : ∃ c ∈ sorted, c < sorted.getLastD 0 := by
      have ha' := htop a ((hperm.mem_iff).mpr ha)
      have hb' := htop b ((hperm.mem_iff).mpr hb)
      rcases lt_or_eq_of_le ha' with h | h
      · exact ⟨a, (hperm.mem_iff).mpr ha, h⟩
      · rcases lt_or_eq_of_le hb' with h' | h'
        · exact ⟨b, (hperm.mem_iff).mpr hb, h'⟩
        · exact absurd (h.trans h'.symm) hab
    obtain ⟨c, hc, hclt⟩ := hex
    have hfne : sorted.filter (fun c => decide (c < sorted.getLastD 0)) ≠ [] := by
      intro h0
      have : c ∈ sorted.filter (fun c => decide (c < sorted.getLastD 0)) :=
        List.mem_filter.mpr ⟨hc, by simpa using hclt⟩
      rw [h0] at this
      simp at this
    have hm := getLastD_mem _ (sorted.getD ((sorted.length - 1) / 2) 0) hfne
    have hm' := List.mem_filter.mp hm
    refine ⟨⟨_, (hperm.mem_iff).mp hm'.1, le_refl _⟩, ⟨_, (hperm.mem_iff).mp htop_mem, ?_⟩⟩
    simpa using hm'.2

/-! ## Theorems : the nearest-neighbour search -/

theorem FindClosest_fold_evaluated (mem : Memory) (q : Point) :
    ∀ (t : KDNode) (st : KDParams),
      (t.FindClosest mem q st).1 = (t.FindClosest mem q st).2.foldl (evalPoint mem q) st := by
  intro t
  induction t with
  | leaf p => intro st; rfl
  | node a s c1 c2 ih1 ih2 =>
    intro st
    simp only [KDNode.FindClosest]
    split
    · split
      · exact ih1 st
      · simp only [List.foldl_append]
        rw [← ih1 st]
        exact ih2 _
    · split
      · exact ih2 st
      · simp only [List.foldl_append]
        rw [← ih2 st]
        exact ih1 _

theorem get_sq_le_Dist2 (q p : Point) (a : Fin 3) :
    (q.get a - p.get a) * (q.get a - p.get a) ≤ Dist2 q p := by
  unfold Dist2
  fin_cases a <;> simp [Point.get] <;> nlinarith [mul_self_nonneg (q.x - p.x),
    mul_self_nonneg (q.y - p.y), mul_self_nonneg (q.z - p.z)]

theorem plane_le_Dist2_right (q p : Point) (a : Fin 3) (s : ℚ) (hq : q.get a ≤ s)
    (hp : s < p.get a) : (q.get a - s) * (q.get a - s) ≤ Dist2 q p := by
  refine le_trans ?_ (get_sq_le_Dist2 q p a)
  nlinarith

theorem plane_le_Dist2_left (q p : Point) (a : Fin 3) (s : ℚ) (hq : ¬ q.get a ≤ s)
    (hp : p.get a ≤ s) : (q.get a - s) * (q.get a - s) ≤ Dist2 q p := by
  refine le_trans ?_ (get_sq_le_Dist2 q p a)
  push_neg at hq
  nlinarith

theorem evalPoint_settled (mem : Memory) (q : Point) (st : KDParams) (h : DoublePtr)
    (hs : Settled st) : Settled (evalPoint mem q st h) := by
  unfold evalPoint
  simp only []
  split
  · intro hc; simp at hc
  · exact hs

theorem foldl_evalPoint_settled (mem : Memory) (q : Point) (l : List DoublePtr) :
    ∀ st : KDParams, Settled st → Settled (l.foldl (evalPoint mem q) st) := by
  induction l with
  | nil => intro st hs; exact hs
  | cons h l ih => intro st hs; exact ih _ (evalPoint_settled mem q st h hs)

theorem evalPoint_far (mem : Memory) (q : Point) (st : KDParams) (h : DoublePtr) (b : ℚ)
    (hs : Settled st) (hb : st.closest_d2 = some b) (hd : b ≤ Dist2 q (coords mem h)) :
    evalPoint mem q st h = st := by
  unfold evalPoint
  cases hc : st.closest with
  | none => have := hs hc; rw [hb] at this; cases this
  | some c => simp [hb, ltBound, not_lt.mpr hd]

theorem foldl_evalPoint_far (mem : Memory) (q : Point) (st : KDParams) (b : ℚ)
    (hs : Settled st) (hb : st.closest_d2 = some b) (l : List DoublePtr)
    (hd : ∀ h ∈ l, b ≤ Dist2 q (coords mem h)) :
    l.foldl (evalPoint mem q) st = st := by
  induction l with
  | nil => rfl
  | cons h l ih =>
    simp only [List.foldl_cons]
    rw [evalPoint_far mem q st h b hs hb (hd h (by simp))]
    exact ih (fun h' hh' => hd h' (by simp [hh']))

theorem FindClosest_eq_fold_nearFirst (mem : Memory) (q : Point) :
    ∀ (t : KDNode) (st : KDParams), t.Ordered mem → Settled st →
      (t.FindClosest mem q st).1 = (t.nearFirst q).foldl (evalPoint mem q) st := by
  intro t
  induction t with
  | leaf p => intro st _ _; rfl
  | node a s c1 c2 ih1 ih2 =>
    intro st ho hs
    obtain ⟨hl, hr, ho1, ho2⟩ := ho
    simp only [KDNode.FindClosest, KDNode.nearFirst]
    by_cases hq : q.get a ≤ s
    · simp only [hq, if_true, List.foldl_append]
      have e1 := ih1 st ho1 hs
      have hs1 : Settled (c1.FindClosest mem q st).1 := by
        rw [e1]; exact foldl_evalPoint_settled mem q _ st hs
      by_cases hp : pruned (q.get a - s) (c1.FindClosest mem q st).1 = true
      · simp only [hp, if_true]
        unfold pruned at hp
        cases hb : (c1.FindClosest mem q st).1.closest_d2 with
        | none => rw [hb] at hp; simp at hp
        | some b =>
          rw [hb] at hp
          have hb' : b ≤ (q.get a - s) * (q.get a - s) := by simpa using hp
          rw [← e1]
          symm
          apply foldl_evalPoint_far mem q _ b hs1 hb
          intro h hh
          have hm : h ∈ c2.points := ((nearFirst_perm q c2).mem_iff).mp hh
          exact le_trans hb' (plane_le_Dist2_right q (coords mem h) a s hq (hr h hm))
      · simp only [hp]
        rw [← e1]
        exact ih2 _ ho2 hs1
    · simp only [hq, if_false, List.foldl_append]
      have e2 := ih2 st ho2 hs
      have hs2 : Settled (c2.FindClosest mem q st).1 := by
        rw [e2]; exact foldl_evalPoint_settled mem q _ st hs
      by_cases hp : pruned (q.get a - s) (c2.FindClosest mem q st).1 = true
      · simp only [hp, if_true]
        unfold pruned at hp
        cases hb : (c2.FindClosest mem q st).1.closest_d2 with
        | none => rw [hb] at hp; simp at hp
        | some b =>
          rw [hb] at hp
          have hb' : b ≤ (q.get a - s) * (q.get a - s) := by simpa using hp
          rw [← e2]
          symm
          apply foldl_evalPoint_far mem q _ b hs2 hb
          intro h hh
          have hm : h ∈ c1.points := ((nearFirst_perm q c1).mem_iff).mp hh
          exact le_trans hb' (plane_le_Dist2_left q (coords mem h) a s hq (hl h hm))
      · simp only [hp]
        rw [← e2]
        exact ih1 _ ho1 hs2

theorem foldl_evalPoint_some (mem : Memory) (q : Point) (l : List DoublePtr) :
    ∀ h0 : DoublePtr, ∃ h : DoublePtr,
      l.foldl (evalPoint mem q) (KDParams.mk (some h0) (some (Dist2 q (coords mem h0)))) =
        KDParams.mk (some h) (some (Dist2 q (coords mem h))) ∧
      (∀ p ∈ l, Dist2 q (coords mem h) ≤ Dist2 q (coords mem p)) ∧
      Dist2 q (coords mem h) ≤ Dist2 q (coords mem h0) ∧
      (h = h0 ∨ (h ∈ l ∧ Dist2 q (coords mem h) < Dist2 q (coords mem h0) ∧
        l.find? (fun p => decide (Dist2 q (coords mem p) = Dist2 q (coords mem h))) = some h)) := by
  induction l with
  | nil => intro h0; exact ⟨h0, rfl, by simp, le_refl _, Or.inl rfl⟩
  | cons p l ih =>
    intro h0
    simp only [List.foldl_cons]
    by_cases hlt : Dist2 q (coords mem p) < Dist2 q (coords mem h0)
    · have e : evalPoint mem q (KDParams.mk (some h0) (some (Dist2 q (coords mem h0)))) p =
          KDParams.mk (some p) (some (Dist2 q (coords mem p))) := by
        simp [evalPoint, ltBound, hlt]
      rw [e]
      obtain ⟨h, hfold, hmin, hle, hcase⟩ := ih p
      refine ⟨h, hfold, ?_, le_trans hle hlt.le, Or.inr ?_⟩
      · intro x hx
        rcases List.mem_cons.mp hx with rfl | hx
        · exact hle
        · exact hmin x hx
      · rcases hcase with rfl | ⟨hm, hlt', hfind⟩
        · exact ⟨by simp, hlt, by simp⟩
        · refine ⟨by simp [hm], lt_trans hlt' hlt, ?_⟩
          rw [List.find?_cons_of_neg _ (by simpa using (ne_of_gt hlt'))]
          exact hfind
    · have e : evalPoint mem q (KDParams.mk (some h0) (some (Dist2 q (coords mem h0)))) p =
          KDParams.mk (some h0) (some (Dist2 q (coords mem h0))) := by
        simp [evalPoint, ltBound, hlt]
      rw [e]
      obtain ⟨h, hfold, hmin, hle, hcase⟩ := ih h0
      refine ⟨h, hfold, ?_, hle, ?_⟩
      · intro x hx
        rcases List.mem_cons.mp hx with rfl | hx
        · exact le_trans hle (not_lt.mp hlt)
        · exact hmin x hx
      · rcases hcase with rfl | ⟨hm, hlt', hfind⟩
        · exact Or.inl rfl
        · refine Or.inr ⟨by simp [hm], hlt', ?_⟩
          have hne : Dist2 q (coords mem p) ≠ Dist2 q (coords mem h) :=
            ne_of_gt (lt_of_lt_of_le hlt' (not_lt.mp hlt))
          rw [List.find?_cons_of_neg _ (by simpa using hne)]
          exact hfind

theorem foldl_evalPoint_init (mem : Memory) (q : Point) (l : List DoublePtr) (hl : l ≠ []) :
    ∃ h : DoublePtr,
      l.foldl (evalPoint mem q) (KDParams.mk none none) =
        KDParams.mk (some h) (some (Dist2 q (coords mem h))) ∧
      h ∈ l ∧ (∀ p ∈ l, Dist2 q (coords mem h) ≤ Dist2 q (coords mem p)) ∧
      l.find? (fun p => decide (Dist2 q (coords mem p) = Dist2 q (coords mem h))) = some h := by
  cases l with
  | nil => exact absurd rfl hl
  | cons p l =>
    simp only [List.foldl_cons]
    have e : evalPoint mem q (KDParams.mk none none) p =
        KDParams.mk (some p) (some (Dist2 q (coords mem p))) := by
      simp [evalPoint, leBound]
    rw [e]
    obtain ⟨h, hfold, hmin, hle, hcase⟩ := foldl_evalPoint_some mem q l p
    refine ⟨h, hfold, ?_, ?_, ?_⟩
    · rcases hcase with rfl | ⟨hm, _, _⟩
      · simp
      · simp [hm]
    · intro x hx
      rcases List.mem_cons.mp hx with rfl | hx
      · exact hle
      · exact hmin x hx
    · rcases hcase with rfl | ⟨hm, hlt', hfind⟩
      · simp
      · rw [List.find?_cons_of_neg _ (by simpa using (ne_of_gt hlt'))]
        exact hfind

/-- C1: for every non-empty list of point handles, every storage and every query
point, `FindClosest` with an unbounded `maxdist2` on the tree built from the handles
returns one of them, at minimal squared Euclidean distance to the query among all
of them, and it is the first handle at exactly that distance both among the handles
the search evaluated, in the order of evaluation, and in the near-side-first
traversal order of the tree. -/
theorem KDtree_FindClosest_nearest (choose : List ℚ → ℚ) (bucket : Nat) (mem : Memory)
    (pts : List DoublePtr) (_p : Point) (hne : pts ≠ []) :
    ∃ h : DoublePtr,
      KDtree.FindClosest mem (KDtree.create choose bucket mem pts) _p none = some h ∧
      h ∈ pts ∧
      (∀ p ∈ pts, Dist2 _p (coords mem h) ≤ Dist2 _p (coords mem p)) ∧
      (KDtree.evaluated mem (KDtree.create choose bucket mem pts) _p none).find?
        (fun p => decide (Dist2 _p (coords mem p) = Dist2 _p (coords mem h))) = some h ∧
      ((KDtree.create choose bucket mem pts).nearFirst _p).find?
        (fun p => decide (Dist2 _p (coords mem p) = Dist2 _p (coords mem h))) = some h := by
  set t := KDtree.create choose bucket mem pts with ht
  have hperm : (t.nearFirst _p).Perm pts :=
    (nearFirst_perm _p t).trans (create_points_perm choose bucket mem pts.length pts)
  have hord : t.Ordered mem := create_ordered choose bucket mem pts.length pts
  have hset : Settled (KDParams.mk none none) := fun _ => rfl
  have hB := FindClosest_eq_fold_nearFirst mem _p t (KDParams.mk none none) hord hset
  have hA := FindClosest_fold_evaluated mem _p t (KDParams.mk none none)
  have hnf : t.nearFirst _p ≠ [] := by
    intro h0
    rw [h0] at hperm
    exact hne (List.Perm.eq_nil hperm.symm)
  obtain ⟨h, hfold, hmem, hmin, hfind⟩ := foldl_evalPoint_init mem _p (t.nearFirst _p) hnf
  have hres : (t.FindClosest mem _p (KDParams.mk none none)).1 =
      KDParams.mk (some h) (some (Dist2 _p (coords mem h))) := hB.trans hfold
  have hev : (t.FindClosest mem _p (KDParams.mk none none)).2 ≠ [] := by
    intro h0
    rw [h0] at hA
    rw [hres] at hA
    simp at hA
  obtain ⟨h', hfold', _, _, hfind'⟩ :=
    foldl_evalPoint_init mem _p (t.FindClosest mem _p (KDParams.mk none none)).2 hev
  have heq : h' = h := by
    have := hA.symm.trans hres
    rw [hfold'] at this
    simpa using congrArg KDParams.closest this
  subst heq
  refine ⟨h', ?_, (hperm.mem_iff).mp hmem, fun p hp => hmin p ((hperm.mem_iff).mpr hp), hfind',
    hfind⟩
  unfold KDtree.FindClosest
  rw [hres]

/-! ## Theorems : the k-nearest-neighbour search -/

theorem push_perm (e : ℚ × DoublePtr) : ∀ heap : KNNHeap, (KNNHeap.push e heap).Perm (e :: heap) := by
  intro heap
  induction heap with
  | nil => simp [KNNHeap.push]
  | cons x xs ih =>
    simp only [KNNHeap.push]
    split
    · exact List.Perm.refl _
    · exact (List.Perm.cons x ih).trans (List.Perm.swap e x xs)

theorem push_sorted (e : ℚ × DoublePtr) :
    ∀ heap : KNNHeap, heap.Pairwise (fun a b => b.1 ≤ a.1) →
      (KNNHeap.push e heap).Pairwise (fun a b => b.1 ≤ a.1) := by
  intro heap
  induction heap with
  | nil => intro _; simp [KNNHeap.push]
  | cons x xs ih =>
    intro hs
    simp only [KNNHeap.push]
    have hx := List.pairwise_cons.mp hs
    split
    · rename_i hle
      refine List.pairwise_cons.mpr ⟨?_, hs⟩
      intro y hy
      rcases List.mem_cons.mp hy with rfl | hy
      · exact hle
      · exact le_trans (hx.1 y hy) hle
    · rename_i hnle
      refine List.pairwise_cons.mpr ⟨?_, ih hx.2⟩
      intro y hy
      have := ((push_perm e xs).mem_iff).mp hy
      rcases List.mem_cons.mp this with rfl | hy'
      · exact (not_le.mp hnle).le
      · exact hx.1 y hy'

theorem offer_KBest (k : Nat) (heap seen : KNNHeap) (e : ℚ × DoublePtr)
    (hk : KBest k heap seen) : KBest k (KNNHeap.offer k heap e) (e :: seen) := by
  obtain ⟨hs, hlen, rest, hperm, hcut, hfull⟩ := hk
  unfold KNNHeap.offer
  by_cases hlt : heap.length < k
  · simp only [hlt, if_true]
    have hrest : rest = [] := by
      by_contra hne
      have := hfull hne
      omega
    subst hrest
    refine ⟨push_sorted e heap hs, ?_, [], ?_, by simp, by simp⟩
    · rw [(push_perm e heap).length_eq]; simp; omega
    · simp only [List.append_nil] at hperm ⊢
      exact (List.Perm.cons e hperm).trans (push_perm e heap).symm
  · simp only [hlt, if_false]
    cases heap with
    | nil =>
      refine ⟨hs, hlen, e :: rest, ?_, by simp, ?_⟩
      · simpa using List.Perm.cons e hperm
      · intro _; simp at hlt ⊢; omega
    | cons top tl =>
      have htop := List.pairwise_cons.mp hs
      have hlen' : (top :: tl).length = k := by omega
      by_cases hcl : e.1 < top.1
      · simp only [hcl, if_true]
        refine ⟨push_sorted e tl htop.2, ?_, top :: rest, ?_, ?_, ?_⟩
        · rw [(push_perm e tl).length_eq]; simp at hlen' ⊢; omega
        · have h1 : (e :: seen).Perm (e :: (top :: tl ++ rest)) := List.Perm.cons e hperm
          refine h1.trans ?_
          have h2 : (KNNHeap.push e tl ++ top :: rest).Perm ((e :: tl) ++ top :: rest) :=
            (push_perm e tl).append_right _
          refine List.Perm.trans ?_ h2.symm
          simp only [List.cons_append]
          refine List.Perm.cons e ?_
          exact List.perm_middle.symm
        · intro x hx y hy
          have hx' := ((push_perm e tl).mem_iff).mp hx
          rcases List.mem_cons.mp hx' with rfl | hxt
          · rcases List.mem_cons.mp hy with rfl | hyr
            · exact hcl.le
            · exact le_trans hcl.le (hcut top (by simp) y hyr)
          · rcases List.mem_cons.mp hy with rfl | hyr
            · exact htop.1 x hxt
            · exact hcut x (by simp [hxt]) y hyr
        · intro _
          rw [(push_perm e tl).length_eq]; simp at hlen' ⊢; omega
      · simp only [hcl, if_false]
        refine ⟨hs, hlen, e :: rest, ?_, ?_, fun _ => hlen'⟩
        · exact (List.Perm.cons e hperm).trans List.perm_middle.symm
        · intro x hx y hy
          rcases List.mem_cons.mp hy with rfl | hyr
          · rcases List.mem_cons.mp hx with rfl | hxt
            · exact not_lt.mp hcl
            · exact le_trans (htop.1 x hxt) (not_lt.mp hcl)
          · exact hcut x hx y hyr

theorem KBest_perm (k : Nat) (heap seen seen' : KNNHeap) (hp : seen'.Perm seen)
    (hk : KBest k heap seen) : KBest k heap seen' := by
  obtain ⟨hs, hlen, rest, hperm, hcut, hfull⟩ := hk
  exact ⟨hs, hlen, rest, hp.trans hperm, hcut, hfull⟩

theorem foldl_knnPoint_KBest (mem : Memory) (q : Point) (maxdist2 : Option ℚ) (k : Nat)
    (l : List DoublePtr) :
    ∀ heap seen : KNNHeap, KBest k heap seen →
      KBest k (l.foldl (knnPoint mem q maxdist2 k) heap) (candidates mem q maxdist2 l ++ seen) := by
  induction l with
  | nil => intro heap seen hk; simpa [candidates] using hk
  | cons h l ih =>
    intro heap seen hk
    simp only [List.foldl_cons]
    unfold knnPoint
    by_cases hw : leBound (Dist2 q (coords mem h)) maxdist2 = true
    · simp only [hw, if_true]
      have h1 := ih _ _ (offer_KBest k heap seen (Dist2 q (coords mem h), h) hk)
      refine KBest_perm k _ _ _ ?_ h1
      simp only [candidates, List.filter_cons, hw, if_true, List.map_cons, List.cons_append]
      exact List.perm_middle.symm
    · simp only [hw]
      have h1 := ih _ _ hk
      simpa [candidates, List.filter_cons, hw] using h1

theorem knnPoint_far (mem : Memory) (q : Point) (maxdist2 : Option ℚ) (k : Nat)
    (top : ℚ × DoublePtr) (tl : KNNHeap) (h : DoublePtr) (hfull : (top :: tl).length = k)
    (hd : top.1 < Dist2 q (coords mem h)) :
    knnPoint mem q maxdist2 k (top :: tl) h = top :: tl := by
  unfold knnPoint
  simp only []
  split
  · unfold KNNHeap.offer
    have : ¬ (top :: tl).length < k := by omega
    simp only [this, if_false]
    simp [not_lt.mpr hd.le]
  · rfl

theorem foldl_knnPoint_far (mem : Memory) (q : Point) (maxdist2 : Option ℚ) (k : Nat)
    (top : ℚ × DoublePtr) (tl : KNNHeap) (hfull : (top :: tl).length = k) (l : List DoublePtr)
    (hd : ∀ h ∈ l, top.1 < Dist2 q (coords mem h)) :
    l.foldl (knnPoint mem q maxdist2 k) (top :: tl) = top :: tl := by
  induction l with
  | nil => rfl
  | cons h l ih =>
    simp only [List.foldl_cons]
    rw [knnPoint_far mem q maxdist2 k top tl h hfull (hd h (by simp))]
    exact ih (fun h' hh' => hd h' (by simp [hh']))

theorem FindClosestKNNRange_eq_fold_nearFirst (mem : Memory) (q : Point) (maxdist2 : Option ℚ)
    (k : Nat) :
    ∀ (t : KDNode) (heap : KNNHeap), t.Ordered mem →
      t.FindClosestKNNRange mem q maxdist2 k heap =
        (t.nearFirst q).foldl (knnPoint mem q maxdist2 k) heap := by
  intro t
  induction t with
  | leaf p => intro heap _; rfl
  | node a s c1 c2 ih1 ih2 =>
    intro heap ho
    obtain ⟨hl, hr, ho1, ho2⟩ := ho
    simp only [KDNode.FindClosestKNNRange, KDNode.nearFirst]
    by_cases hq : q.get a ≤ s
    · simp only [hq, if_true, List.foldl_append]
      rw [ih1 heap ho1]
      by_cases hp : knnPruned k (q.get a - s)
          ((c1.nearFirst q).foldl (knnPoint mem q maxdist2 k) heap) = true
      · simp only [hp, if_true]
        unfold knnPruned at hp
        cases hh : (c1.nearFirst q).foldl (knnPoint mem q maxdist2 k) heap with
        | nil => rw [hh] at hp; simp at hp
        | cons top tl =>
          rw [hh] at hp
          simp only [Bool.and_eq_true, decide_eq_true_eq] at hp
          symm
          apply foldl_knnPoint_far mem q maxdist2 k top tl hp.1
          intro h hm
          have hm' : h ∈ c2.points := ((nearFirst_perm q c2).mem_iff).mp hm
          exact lt_of_lt_of_le hp.2 (plane_le_Dist2_right q (coords mem h) a s hq (hr h hm'))
      · simp only [hp]
        exact ih2 _ ho2
    · simp only [hq, if_false, List.foldl_append]
      rw [ih2 heap ho2]
      by_cases hp : knnPruned k (q.get a - s)
          ((c2.nearFirst q).foldl (knnPoint mem q maxdist2 k) heap) = true
      · simp only [hp, if_true]
        unfold knnPruned at hp
        cases hh : (c2.nearFirst q).foldl (knnPoint mem q maxdist2 k) heap with
        | nil => rw [hh] at hp; simp at hp
        | cons top tl =>
          rw [hh] at hp
          simp only [Bool.and_eq_true, decide_eq_true_eq] at hp
          symm
          apply foldl_knnPoint_far mem q maxdist2 k top tl hp.1
          intro h hm
          have hm' : h ∈ c1.points := ((nearFirst_perm q c1).mem_iff).mp hm
          exact lt_of_lt_of_le hp.2 (plane_le_Dist2_left q (coords mem h) a s hq (hl h hm'))
      · simp only [hp]
        exact ih1 _ ho1

theorem candidates_fst (mem : Memory) (q : Point) (maxdist2 : Option ℚ) (l : List DoublePtr) :
    ∀ x ∈ candidates mem q maxdist2 l, x.1 = Dist2 q (coords mem x.2) := by
  intro x hx
  obtain ⟨h, _, rfl⟩ := List.mem_map.mp hx
  rfl

theorem candidates_snd (mem : Memory) (q : Point) (maxdist2 : Option ℚ) (l : List DoublePtr) :
    (candidates mem q maxdist2 l).map Prod.snd =
      l.filter (fun h => leBound (Dist2 q (coords mem h)) maxdist2) := by
  simp [candidates, List.map_map, Function.comp_def]

theorem KBest_result (mem : Memory) (q : Point) (maxdist2 : Option ℚ) (k : Nat)
    (l : List DoublePtr) (heap : KNNHeap) (hk : KBest k heap (candidates mem q maxdist2 l)) :
    (heap.reverse.map Prod.snd).length =
        min k (l.filter (fun h => leBound (Dist2 q (coords mem h)) maxdist2)).length ∧
      (heap.reverse.map Prod.snd).Pairwise
        (fun a b => Dist2 q (coords mem a) ≤ Dist2 q (coords mem b)) ∧
      ∃ rest : List DoublePtr,
        (l.filter (fun h => leBound (Dist2 q (coords mem h)) maxdist2)).Perm
          (heap.reverse.map Prod.snd ++ rest) ∧
        ∀ a ∈ heap.reverse.map Prod.snd, ∀ b ∈ rest,
          Dist2 q (coords mem a) ≤ Dist2 q (coords mem b) := by
  obtain ⟨hs, hlen, rest, hperm, hcut, hfull⟩ := hk
  have hfst := candidates_fst mem q maxdist2 l
  have hheap : ∀ x ∈ heap, x.1 = Dist2 q (coords mem x.2) := fun x hx =>
    hfst x ((hperm.mem_iff).mpr (List.mem_append.mpr (Or.inl hx)))
  have hrest : ∀ x ∈ rest, x.1 = Dist2 q (coords mem x.2) := fun x hx =>
    hfst x ((hperm.mem_iff).mpr (List.mem_append.mpr (Or.inr hx)))
  have hcount : (l.filter (fun h => leBound (Dist2 q (coords mem h)) maxdist2)).length =
      heap.length + rest.length := by
    rw [← candidates_snd, List.length_map, hperm.length_eq, List.length_append]
  refine ⟨?_, ?_, rest.map Prod.snd, ?_, ?_⟩
  · rw [List.length_map, List.length_reverse, hcount]
    rcases eq_or_ne rest [] with h0 | h0
    · subst h0; simp; omega
    · have := hfull h0; omega
  · rw [List.pairwise_map, List.pairwise_reverse]
    refine hs.imp_of_mem ?_
    intro a b ha hb hab
    rw [← hheap a ha, ← hheap b hb]
    exact hab
  · rw [← candidates_snd]
    refine (hperm.map Prod.snd).trans ?_
    rw [List.map_append]
    exact (List.reverse_perm heap).symm.map Prod.snd |>.append_right _
  · intro a ha b hb
    obtain ⟨x, hx, rfl⟩ := List.mem_map.mp ha
    obtain ⟨y, hy, rfl⟩ := List.mem_map.mp hb
    have hx' : x ∈ heap := List.mem_reverse.mp hx
    rw [← hheap x hx', ← hrest y hy]
    exact hcut x hx' y hy

theorem selection_eq_bruteForce (d : DoublePtr → ℚ) (k : Nat) (F res rest : List DoublePtr)
    (hperm : F.Perm (res ++ rest)) (hlen : res.length = min k F.length)
    (hs : res.Pairwise (fun a b => d a ≤ d b))
    (hcut : ∀ a ∈ res, ∀ b ∈ rest, d a ≤ d b) :
    res.map d = ((F.insertionSort (fun a b => d a ≤ d b)).take k).map d := by
  haveI : IsTotal DoublePtr (fun a b => d a ≤ d b) := ⟨fun a b => le_total (d a) (d b)⟩
  haveI : IsTrans DoublePtr (fun a b => d a ≤ d b) := ⟨fun a b c h1 h2 => le_trans h1 h2⟩
  have hB := List.sorted_insertionSort (fun a b => d a ≤ d b) F
  have hR := List.sorted_insertionSort (fun a b => d a ≤ d b) rest
  have hpB := List.perm_insertionSort (fun a b => d a ≤ d b) F
  have hpR := List.perm_insertionSort (fun a b => d a ≤ d b) rest
  have hS : (res ++ rest.insertionSort (fun a b => d a ≤ d b)).Pairwise
      (fun a b => d a ≤ d b) := by
    refine List.pairwise_append.mpr ⟨hs, hR, ?_⟩
    intro a ha b hb
    exact hcut a ha b ((hpR.mem_iff).mp hb)
  have hP : (res ++ rest.insertionSort (fun a b => d a ≤ d b)).Perm
      (F.insertionSort (fun a b => d a ≤ d b)) :=
    ((hpR.append_left res).trans hperm.symm).trans hpB.symm
  have hE : (res ++ rest.insertionSort (fun a b => d a ≤ d b)).map d =
      (F.insertionSort (fun a b => d a ≤ d b)).map d := by
    have s1 : List.Sorted (fun a b : ℚ => a ≤ b)
        ((res ++ rest.insertionSort (fun a b => d a ≤ d b)).map d) := List.pairwise_map.mpr hS
    have s2 : List.Sorted (fun a b : ℚ => a ≤ b)
        ((F.insertionSort (fun a b => d a ≤ d b)).map d) := List.pairwise_map.mpr hB
    exact List.eq_of_perm_of_sorted (hP.map d) s1 s2
  rw [List.map_take, ← hE, List.map_append]
  have hFl : F.length = res.length + rest.length := by
    rw [hperm.length_eq, List.length_append]
  by_cases hk : k ≤ F.length
  · have hrl : res.length = k := by rw [hlen]; exact Nat.min_eq_left hk
    have : (res.map d).length = k := by rw [List.length_map, hrl]
    rw [← this, List.take_left']
    rfl
  · have hrl : res.length = F.length := by rw [hlen]; exact Nat.min_eq_right (by omega)
    have hr0 : rest = [] := by
      apply List.eq_nil_of_length_eq_zero; omega
    subst hr0
    simp only [List.insertionSort, List.map_nil, List.append_nil]
    rw [List.take_of_length_le]
    rw [List.length_map]; omega

theorem FindClosestKNNRange_selection (choose : List ℚ → ℚ) (bucket : Nat) (mem : Memory)
    (pts : List DoublePtr) (_p : Point) (r : ℚ) (k : Nat) :
    (KDtree.FindClosestKNNRange mem (KDtree.create choose bucket mem pts) _p
        (some (r * r)) k).length = min k (inRange mem _p r pts).length ∧
      (KDtree.FindClosestKNNRange mem (KDtree.create choose bucket mem pts) _p
        (some (r * r)) k).Pairwise
          (fun a b => Dist2 _p (coords mem a) ≤ Dist2 _p (coords mem b)) ∧
      (∃ rest : List DoublePtr,
        (inRange mem _p r pts).Perm
          (KDtree.FindClosestKNNRange mem (KDtree.create choose bucket mem pts) _p
            (some (r * r)) k ++ rest) ∧
        ∀ a ∈ KDtree.FindClosestKNNRange mem (KDtree.create choose bucket mem pts) _p
            (some (r * r)) k, ∀ b ∈ rest,
          Dist2 _p (coords mem a) ≤ Dist2 _p (coords mem b)) := by
  unfold KDtree.FindClosestKNNRange
  by_cases hk0 : k = 0
  · subst hk0
    simp only [if_true, List.length_nil, Nat.zero_min, List.Pairwise.nil, List.nil_append,
      true_and]
    exact ⟨inRange mem _p r pts, List.Perm.refl _, fun a ha => by simp at ha⟩
  · simp only [hk0, if_false]
    set t := KDtree.create choose bucket mem pts with ht
    have hperm : (t.nearFirst _p).Perm pts :=
      (nearFirst_perm _p t).trans (create_points_perm choose bucket mem pts.length pts)
    have hord : t.Ordered mem := create_ordered choose bucket mem pts.length pts
    rw [FindClosestKNNRange_eq_fold_nearFirst mem _p (some (r * r)) k t [] hord]
    have h0 : KBest k [] [] := ⟨List.Pairwise.nil, Nat.zero_le _, [], by simp, by simp, by simp⟩
    have hK := foldl_knnPoint_KBest mem _p (some (r * r)) k (t.nearFirst _p) [] [] h0
    rw [List.append_nil] at hK
    obtain ⟨h1, h2, rest, h3, h4⟩ := KBest_result mem _p (some (r * r)) k _ _ hK
    have hF : ((t.nearFirst _p).filter
        (fun h => leBound (Dist2 _p (coords mem h)) (some (r * r)))).Perm
        (inRange mem _p r pts) := by
      unfold inRange
      have e : (fun h => leBound (Dist2 _p (coords mem h)) (some (r * r))) =
          (fun h => decide (Dist2 _p (coords mem h) ≤ r * r)) := by
        funext h; rfl
      rw [e]
      exact hperm.filter _
    refine ⟨?_, h2, rest, hF.symm.trans h3, h4⟩
    rw [h1, hF.length_eq]

theorem map_eq_of_injOn (d : DoublePtr → ℚ) :
    ∀ l1 l2 : List DoublePtr, (∀ a ∈ l1, ∀ b ∈ l2, d a = d b → a = b) →
      l1.map d = l2.map d → l1 = l2 := by
  intro l1
  induction l1 with
  | nil =>
    intro l2 _ h
    cases l2 with
    | nil => rfl
    | cons b l2 => simp at h
  | cons a l1 ih =>
    intro l2 hinj h
    cases l2 with
    | nil => simp at h
    | cons b l2 =>
      simp only [List.map_cons, List.cons.injEq] at h
      have hab : a = b := hinj a (by simp) b (by simp) h.1
      have htl : l1 = l2 :=
        ih l2 (fun x hx y hy hxy => hinj x (by simp [hx]) y (by simp [hy]) hxy) h.2
      rw [hab, htl]

/-- C2: for every list of point handles, storage, query point, count `k` and radius
`r`, `FindClosestKNNRange` with the bound `r * r` on the tree built from the handles
fills the list with exactly `min k n` handles, `n` the number of handles within
squared distance `r * r` of the query (bound inclusive); they are in ascending order
of distance; as a multiset they are `k` nearest of the handles within the bound (the
handles within the bound are those returned and a rest none of which is closer
than a returned one); their distances are those of the brute-force answer; and
they are the brute-force answer itself when no two handles within the bound are
at the same distance. -/
theorem KDtree_FindClosestKNNRange_knn (choose : List ℚ → ℚ) (bucket : Nat) (mem : Memory)
    (pts : List DoublePtr) (_p : Point) (r : ℚ) (k : Nat) :
    (KDtree.FindClosestKNNRange mem (KDtree.create choose bucket mem pts) _p
        (some (r * r)) k).length = min k (inRange mem _p r pts).length ∧
      (KDtree.FindClosestKNNRange mem (KDtree.create choose bucket mem pts) _p
        (some (r * r)) k).Pairwise
          (fun a b => Dist2 _p (coords mem a) ≤ Dist2 _p (coords mem b)) ∧
      (∃ rest : List DoublePtr,
        (inRange mem _p r pts).Perm
          (KDtree.FindClosestKNNRange mem (KDtree.create choose bucket mem pts) _p
            (some (r * r)) k ++ rest) ∧
        ∀ a ∈ KDtree.FindClosestKNNRange mem (KDtree.create choose bucket mem pts) _p
            (some (r * r)) k, ∀ b ∈ rest,
          Dist2 _p (coords mem a) ≤ Dist2 _p (coords mem b)) ∧
      (KDtree.FindClosestKNNRange mem (KDtree.create choose bucket mem pts) _p
          (some (r * r)) k).map (fun h => Dist2 _p (coords mem h)) =
        (bruteForceKNN mem _p r k pts).map (fun h => Dist2 _p (coords mem h)) ∧
      ((∀ a ∈ inRange mem _p r pts, ∀ b ∈ inRange mem _p r pts,
          Dist2 _p (coords mem a) = Dist2 _p (coords mem b) → a = b) →
        KDtree.FindClosestKNNRange mem (KDtree.create choose bucket mem pts) _p
          (some (r * r)) k = bruteForceKNN mem _p r k pts) := by
  obtain ⟨h1, h2, rest, h3, h4⟩ := FindClosestKNNRange_selection choose bucket mem pts _p r k
  have h5 := selection_eq_bruteForce (fun h => Dist2 _p (coords mem h)) k (inRange mem _p r pts)
    _ rest h3 h1 h2 h4
  refine ⟨h1, h2, ⟨rest, h3, h4⟩, h5, ?_⟩
  intro hinj
  apply map_eq_of_injOn (fun h => Dist2 _p (coords mem h)) _ _ _ h5
  intro a ha b hb hab
  apply hinj a _ b _ hab
  · exact (h3.mem_iff).mpr (List.mem_append.mpr (Or.inl ha))
  · unfold bruteForceKNN at hb
    exact ((List.perm_insertionSort _ _).mem_iff).mp (List.mem_of_mem_take hb)

/-! ## The concrete scenarios of section 8 -/

/-- C1 (witness): the four points of section 8 in a tree with buckets of one handle
and median splits, queried at `(4,4,4)`. -/
theorem KDtree_FindClosest_nearest_witness :
    ∃ h : DoublePtr,
      KDtree.FindClosest scenarioMem (KDtree.create medianSplit 1 scenarioMem [0, 1, 2, 3])
        (Point.mk 4 4 4) none = some h ∧
      h ∈ [0, 1, 2, 3] ∧
      (∀ p ∈ [0, 1, 2, 3], Dist2 (Point.mk 4 4 4) (coords scenarioMem h) ≤
        Dist2 (Point.mk 4 4 4) (coords scenarioMem p)) ∧
      (KDtree.evaluated scenarioMem (KDtree.create medianSplit 1 scenarioMem [0, 1, 2, 3])
        (Point.mk 4 4 4) none).find?
        (fun p => decide (Dist2 (Point.mk 4 4 4) (coords scenarioMem p) =
          Dist2 (Point.mk 4 4 4) (coords scenarioMem h))) = some h ∧
      ((KDtree.create medianSplit 1 scenarioMem [0, 1, 2, 3]).nearFirst (Point.mk 4 4 4)).find?
        (fun p => decide (Dist2 (Point.mk 4 4 4) (coords scenarioMem p) =
          Dist2 (Point.mk 4 4 4) (coords scenarioMem h))) = some h :=
  KDtree_FindClosest_nearest medianSplit 1 scenarioMem [0, 1, 2, 3] (Point.mk 4 4 4)
    (List.cons_ne_nil 0 [1, 2, 3])

/-- The tree the builder makes of the four points of section 8 with buckets of one
handle: a split on `x`, then a split on `y` on either side. -/
theorem scenario_tree :
    KDtree.create medianSplit 1 scenarioMem [0, 1, 2, 3] =
      KDNode.node 0 0 (KDNode.node 1 0 (KDNode.leaf [0]) (KDNode.leaf [2]))
        (KDNode.node 1 0 (KDNode.leaf [1]) (KDNode.leaf [3])) := by
  decide!

/-- On that tree the query `(4,4,4)` finds `(5,5,5)`, and evaluates no other point:
both far sides are pruned. -/
theorem scenario_FindClosest_prunes :
    KDtree.FindClosest scenarioMem (KDtree.create medianSplit 1 scenarioMem [0, 1, 2, 3])
        (Point.mk 4 4 4) none = some 3 ∧
      KDtree.evaluated scenarioMem (KDtree.create medianSplit 1 scenarioMem [0, 1, 2, 3])
        (Point.mk 4 4 4) none = [3] := by
  decide!

/-- The first scenario of section 8: `q = (0,0,0)`, `maxSquaredDistance = 4`, `k = 2`
gives `(0,0,0)` and `(1,0,0)`, in this order; with `k = 3` the point `(0,2,0)`, at
squared distance exactly `4`, is returned too. -/
theorem scenario_FindClosestKNNRange :
    KDtree.FindClosestKNNRange scenarioMem (KDtree.create medianSplit 1 scenarioMem [0, 1, 2, 3])
        (Point.mk 0 0 0) (some 4) 2 = [0, 1] ∧
      KDtree.FindClosestKNNRange scenarioMem (KDtree.create medianSplit 1 scenarioMem [0, 1, 2, 3])
        (Point.mk 0 0 0) (some 4) 3 = [0, 1, 2] := by
  decide!

/-- The second scenario of section 8: `P = {(0,0,0)}`, `q = (10,10,10)`,
`maxSquaredDistance = 1`: no point is found. -/
theorem scenario_FindClosest_none :
    KDtree.FindClosest scenarioMem (KDtree.create medianSplit 1 scenarioMem [0])
      (Point.mk 10 10 10) (some 1) = none := by
  decide!

end Slam6D
